import Mathlib

/-!
Shallow embedding of `src/src/hashes.rs` (crate `hrpph_ict`): the HRPPH
integer-close-to hash scheme.  Big integers (`BigUint`, `BigInt`) are modelled
as `ℕ` / `ℤ`; the `u16` fields are modelled as `ℕ` (their reachable values are
small enough that no `u16` overflow can occur, see the lemmas below).  Rust
panics (`unwrap`, `assert`, division by zero, a `modpow` with zero modulus and
the non-terminating `eval` loop for `d = 0`) are modelled by `Option`: `none`
means the original program aborts (or diverges) instead of returning a value.
Rust's `%` and `/` on `BigInt` truncate towards zero, hence `Int.tmod` /
`Int.tdiv` below.
-/

/-- Absolute value of the truncated remainder is the `Nat` remainder of the
absolute values. -/
theorem natAbs_tmod (b a : ℤ) : (Int.tmod b a).natAbs = b.natAbs % a.natAbs := by
  cases b <;> cases a <;> simp only [Int.tmod, Int.natAbs_neg] <;> rfl

/-- Helper for the termination of `egcd`: the truncated remainder strictly
shrinks in absolute value. -/
theorem natAbs_tmod_lt (b a : ℤ) (h : a ≠ 0) : (Int.tmod b a).natAbs < a.natAbs := by
  rw [natAbs_tmod]
  exact Nat.mod_lt _ (Int.natAbs_pos.mpr h)

/-- Embedding of `fn egcd(a: &BigInt, b: &BigInt) -> (BigInt, BigInt, BigInt)`
from `src/src/hashes.rs`: recursive extended Euclid over signed integers,
returning `(g, x, y)`. -/
def egcd (a b : ℤ) : ℤ × ℤ × ℤ :=
  if a = 0 then (b, 0, 1)
  else
    let p := egcd (Int.tmod b a) a
    (p.1, p.2.2 - Int.tdiv b a * p.2.1, p.2.1)
termination_by a.natAbs
decreasing_by exact natAbs_tmod_lt b a (by assumption)

/-- Embedding of `fn modinverse(a: &BigUint, m: &BigUint) -> Option<BigUint>`
from `src/src/hashes.rs`.  The final `.to_biguint()` of the Rust code returns
`None` on a negative value, hence the sign test. -/
def modinverse (a m : ℕ) : Option ℕ :=
  let e := egcd (a : ℤ) (m : ℤ)
  if e.1 ≠ 1 then none
  else
    let v := Int.tmod (Int.tmod e.2.1 (m : ℤ) + (m : ℤ)) (m : ℤ)
    if 0 ≤ v then some v.toNat else none

/-- Embedding of `struct Hash` from `src/src/hashes.rs`: remainder `r`, group
element `g`, small modulus `d`, big modulus `n`.  Equality is the derived
component-wise equality (`#[derive(PartialEq, Eq)]`). -/
structure Hash where
  r : ℕ
  g : ℕ
  d : ℕ
  n : ℕ
deriving DecidableEq

/-- Embedding of `impl Add for Hash`: the two `assert_eq!` guards are modelled
by the `if`; `none` is the panic on mismatched moduli. -/
def Hash.add (h1 h2 : Hash) : Option Hash :=
  if h1.d = h2.d ∧ h1.n = h2.n then
    some ⟨(h1.r + h2.r) % h1.d, h1.g * h2.g % h1.n, h1.d, h1.n⟩
  else none

/-- Embedding of `fn inverse(&self) -> Hash`: `none` is the `unwrap` panic when
the group element has no modular inverse. -/
def Hash.inverse (h : Hash) : Option Hash :=
  (modinverse h.g h.n).map fun gi => ⟨h.d - h.r, gi, h.d, h.n⟩

/-- Embedding of `impl Sub for Hash`: `self + other.inverse()`. -/
def Hash.sub (h1 h2 : Hash) : Option Hash :=
  h2.inverse.bind fun hi => h1.add hi

/-- Embedding of `struct HRPPHICT` from `src/src/hashes.rs`: threshold `t`,
small modulus `d`, half rounds `s`, base `a`, big modulus `n`. -/
structure HRPPHICT where
  t : ℕ
  d : ℕ
  s : ℕ
  a : ℕ
  n : ℕ
deriving DecidableEq

/-- Embedding of `HRPPHICT::new(threshold, lambda)`.  The RSA key generation
and the random sampling of the base are external collaborators, so the raw
random value `a0` and the externally produced modulus `module` are parameters.
`none` models the division-by-zero panic of `threshold / d` when
`threshold = 0` (then `d = 0`). -/
def HRPPHICT.new (threshold a0 module : ℕ) : Option HRPPHICT :=
  let d := if threshold ≤ 100 then threshold else threshold / 100
  if d = 0 then none
  else some ⟨threshold, d, threshold / d, a0 % module, module⟩

/-- The common signed-exponent power computation of `HRPPHICT::hash` and
`HRPPHICT::eqcheck`: `a^x mod n` for `x ≥ 0`, and the modular inverse of
`a^(-x) mod n` for `x < 0`.  `none` models both the `unwrap` panic on a
missing inverse and the `modpow` panic on a zero modulus. -/
def sgnpow (a : ℕ) (x : ℤ) (n : ℕ) : Option ℕ :=
  if n = 0 then none
  else if 0 ≤ x then some (a ^ x.toNat % n)
  else modinverse (a ^ (-x).toNat % n) n

/-- Embedding of `HRPPHICT::hash(&self, x: &BigInt) -> Hash`.  The remainder is
`x % d` (truncated), shifted by `d` when negative.  `none` models the panics:
missing modular inverse, and (for `d = 0`) the division by zero of `x % d`. -/
def HRPPHICT.hash (G : HRPPHICT) (x : ℤ) : Option Hash :=
  if G.d = 0 then none
  else (sgnpow G.a x G.n).map fun c =>
    let nr := Int.tmod x (G.d : ℤ)
    let pr := if nr < 0 then nr + (G.d : ℤ) else nr
    ⟨pr.toNat, c, G.d, G.n⟩

/-- Embedding of `HRPPHICT::eqcheck(&self, x: i32, y: &BigUint) -> bool`. -/
def HRPPHICT.eqcheck (G : HRPPHICT) (x : ℤ) (y : ℕ) : Option Bool :=
  (sgnpow G.a x G.n).map fun h => h == y

/-- The `while c > bottom` loop of `HRPPHICT::eval`, instrumented: the second
component counts the calls to `eqcheck` (trial exponentiations).  The loop of
the source does not terminate when `d = 0` (the step is `0`); that unreachable
case (setup never produces `d = 0`) is modelled by `(none, 0)`. -/
def evalLoopC (G : HRPPHICT) (g : ℕ) (c : ℤ) : Option (Option ℤ × Bool) × ℕ :=
  if G.d = 0 then (none, 0)
  else if c > -(G.t : ℤ) then
    match G.eqcheck c g with
    | some true => (some (some c, true), 1)
    | some false =>
      let p := evalLoopC G g (c - (G.d : ℤ))
      (p.1, p.2 + 1)
    | none => (none, 1)
  else (some (none, false), 0)
termination_by (c + (G.t : ℤ)).toNat
decreasing_by
  have h1 : G.d ≠ 0 := by assumption
  omega

/-- The initial candidate of `HRPPHICT::eval`:
`c = s * d + h.r`, lowered one step when it exceeds the threshold. -/
def evalInit (G : HRPPHICT) (h : Hash) : ℤ :=
  let c0 : ℤ := (G.s * G.d : ℕ) + (h.r : ℕ)
  if c0 > (G.t : ℤ) then c0 - (G.d : ℤ) else c0

/-- Embedding of `HRPPHICT::eval(&self, h: &Hash) -> (Option<i32>, bool)`. -/
def HRPPHICT.eval (G : HRPPHICT) (h : Hash) : Option (Option ℤ × Bool) :=
  (evalLoopC G h.g (evalInit G h)).1

/-- Number of trial exponentiations (`eqcheck` calls) performed by
`HRPPHICT::eval` on `h`. -/
def evalSteps (G : HRPPHICT) (h : Hash) : ℕ :=
  (evalLoopC G h.g (evalInit G h)).2

/-! ### Correctness of `egcd` and `modinverse` -/

/-- The gcd is invariant under the Euclidean step with truncated remainder. -/
theorem gcd_tmod (a b : ℤ) : Int.gcd (Int.tmod b a) a = Int.gcd a b := by
  rw [Int.gcd_def, Int.gcd_def, natAbs_tmod]
  exact (Nat.gcd_rec a.natAbs b.natAbs).symm

/-- `egcd` evaluated at zero first argument. -/
theorem egcd_zero (b : ℤ) : egcd 0 b = (b, 0, 1) := by
  rw [egcd]
  norm_num

/-- `egcd` evaluated off zero: one Euclidean step. -/
theorem egcd_step (a b : ℤ) (h : a ≠ 0) :
    egcd a b = ((egcd (Int.tmod b a) a).1,
      (egcd (Int.tmod b a) a).2.2 - Int.tdiv b a * (egcd (Int.tmod b a) a).2.1,
      (egcd (Int.tmod b a) a).2.1) := by
  conv_lhs => rw [egcd]
  simp [h]

/-- `egcd` on non-negative inputs returns the gcd together with Bezout
coefficients. -/
theorem egcd_spec (a b : ℤ) :
    0 ≤ a → 0 ≤ b →
    (egcd a b).1 = (Int.gcd a b : ℤ) ∧
    a * (egcd a b).2.1 + b * (egcd a b).2.2 = (egcd a b).1 := by
  induction a, b using egcd.induct with
  | case1 b =>
    intro _ hb
    rw [egcd_zero]
    refine ⟨?_, by ring⟩
    simp [Int.gcd_zero_left, Int.natAbs_of_nonneg hb]
  | case2 a b hne ih =>
    intro ha hb
    have htm : 0 ≤ Int.tmod b a := Int.tmod_nonneg a hb
    obtain ⟨ihg, ihbz⟩ := ih htm ha
    rw [egcd_step a b hne]
    constructor
    · rw [ihg, gcd_tmod]
    · have ht : Int.tmod b a = b - a * Int.tdiv b a := by
        have h2 := Int.tdiv_add_tmod b a
        linarith
      linear_combination ihbz - (egcd (Int.tmod b a) a).2.1 * ht

/-- When `gcd(b, n) = 1` and `n > 0`, `modinverse` succeeds and produces a
value below `n` that multiplies with `b` to `1` modulo `n`. -/
theorem modinverse_some (b n : ℕ) (hn : 0 < n) (hco : Nat.Coprime b n) :
    ∃ v, modinverse b n = some v ∧ v < n ∧ v * b % n = 1 % n := by
  obtain ⟨hg, hbz⟩ := egcd_spec (b : ℤ) (n : ℤ) (by positivity) (by positivity)
  rw [Int.gcd_natCast_natCast, hco] at hg
  have hg1 : (egcd (b : ℤ) (n : ℤ)).1 = 1 := by rw [hg]; norm_num
  have hm : (0 : ℤ) < (n : ℤ) := by exact_mod_cast hn
  have habs : (Int.tmod (egcd (b : ℤ) (n : ℤ)).2.1 (n : ℤ)).natAbs < n := by
    rw [natAbs_tmod]
    simpa using Nat.mod_lt _ hn
  have hge : 0 ≤ Int.tmod (egcd (b : ℤ) (n : ℤ)).2.1 (n : ℤ) + (n : ℤ) := by omega
  have hem : Int.tmod (Int.tmod (egcd (b : ℤ) (n : ℤ)).2.1 (n : ℤ) + (n : ℤ)) (n : ℤ)
      = (Int.tmod (egcd (b : ℤ) (n : ℤ)).2.1 (n : ℤ) + (n : ℤ)) % (n : ℤ) :=
    Int.tmod_eq_emod hge (le_of_lt hm)
  have hv0 : 0 ≤ Int.tmod (Int.tmod (egcd (b : ℤ) (n : ℤ)).2.1 (n : ℤ) + (n : ℤ)) (n : ℤ) := by
    rw [hem]
    exact Int.emod_nonneg _ (by omega)
  have hvlt : Int.tmod (Int.tmod (egcd (b : ℤ) (n : ℤ)).2.1 (n : ℤ) + (n : ℤ)) (n : ℤ) < (n : ℤ) := by
    rw [hem]
    exact Int.emod_lt_of_pos _ hm
  refine ⟨(Int.tmod (Int.tmod (egcd (b : ℤ) (n : ℤ)).2.1 (n : ℤ) + (n : ℤ)) (n : ℤ)).toNat,
    ?_, by omega, ?_⟩
  · simp only [modinverse, hg1]
    norm_num [hv0]
  · have hxv : Int.tmod (Int.tmod (egcd (b : ℤ) (n : ℤ)).2.1 (n : ℤ) + (n : ℤ)) (n : ℤ) % (n : ℤ)
        = (egcd (b : ℤ) (n : ℤ)).2.1 % (n : ℤ) := by
      have hta : Int.tmod (egcd (b : ℤ) (n : ℤ)).2.1 (n : ℤ)
          = (egcd (b : ℤ) (n : ℤ)).2.1 - (n : ℤ) * Int.tdiv (egcd (b : ℤ) (n : ℤ)).2.1 (n : ℤ) := by
        have h2 := Int.tdiv_add_tmod (egcd (b : ℤ) (n : ℤ)).2.1 (n : ℤ)
        linarith
      rw [hem, Int.emod_emod_of_dvd _ dvd_rfl, hta]
      have h3 : (egcd (b : ℤ) (n : ℤ)).2.1 - (n : ℤ) * Int.tdiv (egcd (b : ℤ) (n : ℤ)).2.1 (n : ℤ)
            + (n : ℤ)
          = (egcd (b : ℤ) (n : ℤ)).2.1
            + (n : ℤ) * (1 - Int.tdiv (egcd (b : ℤ) (n : ℤ)).2.1 (n : ℤ)) := by ring
      rw [h3, Int.add_mul_emod_self_left]
    have hbx : (b : ℤ) * (egcd (b : ℤ) (n : ℤ)).2.1 % (n : ℤ) = 1 % (n : ℤ) := by
      have h4 : (b : ℤ) * (egcd (b : ℤ) (n : ℤ)).2.1
          = 1 + (n : ℤ) * (-(egcd (b : ℤ) (n : ℤ)).2.2) := by
        rw [hg1] at hbz
        linear_combination hbz
      rw [h4, Int.add_mul_emod_self_left]
    have hkey : ((Int.tmod (Int.tmod (egcd (b : ℤ) (n : ℤ)).2.1 (n : ℤ) + (n : ℤ)) (n : ℤ)).toNat
        * b : ℤ) % (n : ℤ) = (1 : ℤ) % (n : ℤ) := by
      rw [Int.toNat_of_nonneg hv0]
      calc Int.tmod (Int.tmod (egcd (b : ℤ) (n : ℤ)).2.1 (n : ℤ) + (n : ℤ)) (n : ℤ) * (b : ℤ)
            % (n : ℤ)
          = Int.tmod (Int.tmod (egcd (b : ℤ) (n : ℤ)).2.1 (n : ℤ) + (n : ℤ)) (n : ℤ) % (n : ℤ)
            * ((b : ℤ) % (n : ℤ)) % (n : ℤ) := Int.mul_emod _ _ _
        _ = (egcd (b : ℤ) (n : ℤ)).2.1 % (n : ℤ) * ((b : ℤ) % (n : ℤ)) % (n : ℤ) := by rw [hxv]
        _ = (egcd (b : ℤ) (n : ℤ)).2.1 * (b : ℤ) % (n : ℤ) := (Int.mul_emod _ _ _).symm
        _ = (b : ℤ) * (egcd (b : ℤ) (n : ℤ)).2.1 % (n : ℤ) := by ring_nf
        _ = 1 % (n : ℤ) := hbx
    exact_mod_cast hkey

/-- `modinverse` fails exactly on non-coprime inputs (for a positive
modulus). -/
theorem modinverse_none_iff (b n : ℕ) (hn : 0 < n) :
    modinverse b n = none ↔ Nat.gcd b n ≠ 1 := by
  constructor
  · intro h hg
    obtain ⟨v, hv, -, -⟩ := modinverse_some b n hn hg
    rw [h] at hv
    cases hv
  · intro hg
    unfold modinverse
    obtain ⟨h1, -⟩ := egcd_spec (b : ℤ) (n : ℤ) (by positivity) (by positivity)
    rw [Int.gcd_natCast_natCast] at h1
    have : ((egcd (b : ℤ) (n : ℤ)).1 ≠ 1) := by
      rw [h1]
      exact_mod_cast hg
    simp [this]

/-- Whatever `modinverse` returns satisfies the inverse property. -/
theorem modinverse_spec (b n v : ℕ) (hn : 0 < n) (h : modinverse b n = some v) :
    v < n ∧ v * b % n = 1 % n ∧ Nat.Coprime b n := by
  have hco : Nat.Coprime b n := by
    by_contra hg
    have := (modinverse_none_iff b n hn).mpr hg
    rw [this] at h
    cases h
  obtain ⟨w, hw, hlt, hmul⟩ := modinverse_some b n hn hco
  rw [h] at hw
  cases hw
  exact ⟨hlt, hmul, hco⟩

/-- On the value of a unit of `ZMod n`, `modinverse` returns the value of the
inverse unit. -/
theorem modinverse_val_unit (n : ℕ) (hn : 0 < n) (u : (ZMod n)ˣ) :
    modinverse ((u : ZMod n)).val n = some (((u⁻¹ : (ZMod n)ˣ) : ZMod n)).val := by
  haveI : NeZero n := NeZero.of_pos hn
  have hco : Nat.Coprime ((u : ZMod n)).val n := ZMod.val_coe_unit_coprime u
  obtain ⟨v, hv, hlt, hmul⟩ := modinverse_some _ n hn hco
  have hcast : ((v : ℕ) : ZMod n) * ((((u : ZMod n)).val : ℕ) : ZMod n) = 1 := by
    have h5 : ((v * ((u : ZMod n)).val : ℕ) : ZMod n) = ((1 : ℕ) : ZMod n) :=
      (ZMod.natCast_eq_natCast_iff _ _ _).mpr hmul
    push_cast at h5
    exact h5
  rw [ZMod.natCast_zmod_val] at hcast
  have hvu : ((v : ℕ) : ZMod n) = ((u⁻¹ : (ZMod n)ˣ) : ZMod n) := by
    calc ((v : ℕ) : ZMod n)
        = ((v : ℕ) : ZMod n) * ((u : ZMod n) * ((u⁻¹ : (ZMod n)ˣ) : ZMod n)) := by
          rw [Units.mul_inv, mul_one]
      _ = (((v : ℕ) : ZMod n) * (u : ZMod n)) * ((u⁻¹ : (ZMod n)ˣ) : ZMod n) := by ring
      _ = ((u⁻¹ : (ZMod n)ˣ) : ZMod n) := by rw [hcast, one_mul]
  have hvval : v = (((u⁻¹ : (ZMod n)ˣ) : ZMod n)).val := by
    rw [← hvu, ZMod.val_cast_of_lt hlt]
  rw [hv, hvval]

/-- `a ^ k mod n` is the value of the `k`-th power of the unit attached to a
coprime base `a`. -/
theorem pow_mod_val_unit (a n : ℕ) (hn : 0 < n) (hco : Nat.Coprime a n) (k : ℕ) :
    haveI : NeZero n := NeZero.of_pos hn
    a ^ k % n = (((ZMod.unitOfCoprime a hco ^ k : (ZMod n)ˣ) : ZMod n)).val := by
  haveI : NeZero n := NeZero.of_pos hn
  rw [Units.val_pow_eq_pow_val, ZMod.coe_unitOfCoprime, ← Nat.cast_pow, ZMod.val_natCast]

/-- `sgnpow` of a coprime base is total and computes the value of the signed
power of the attached unit. -/
theorem sgnpow_unit (a n : ℕ) (hn : 0 < n) (hco : Nat.Coprime a n) (x : ℤ) :
    haveI : NeZero n := NeZero.of_pos hn
    sgnpow a x n = some ((((ZMod.unitOfCoprime a hco) ^ x : (ZMod n)ˣ) : ZMod n)).val := by
  haveI : NeZero n := NeZero.of_pos hn
  unfold sgnpow
  rw [if_neg (by omega)]
  by_cases hx : 0 ≤ x
  · rw [if_pos hx, pow_mod_val_unit a n hn hco]
    congr 2
    rw [← zpow_natCast, Int.toNat_of_nonneg hx]
  · rw [if_neg hx]
    rw [pow_mod_val_unit a n hn hco ((-x).toNat), modinverse_val_unit n hn]
    congr 2
    rw [← zpow_natCast, Int.toNat_of_nonneg (by omega : (0 : ℤ) ≤ -x), zpow_neg, inv_inv]

/-- The modular inverse is unique below the modulus. -/
theorem modinverse_unique {b n v w : ℕ} (hco : Nat.Coprime b n)
    (hv : v * b % n = 1 % n) (hw : w * b % n = 1 % n)
    (h1 : v < n) (h2 : w < n) : v = w := by
  have hmod : v * b ≡ w * b [MOD n] := by
    unfold Nat.ModEq
    rw [hv, hw]
  have : v ≡ w [MOD n] := hmod.cancel_right_of_coprime (by rwa [Nat.coprime_comm] at hco)
  have := this.eq_of_lt_of_lt h1 h2
  exact this

/-! ### The remainder computation of `hash` -/

/-- The truncated remainder, bounded in absolute value by the divisor. -/
theorem tmod_bounds (x : ℤ) (d : ℕ) (hd : 0 < d) :
    -(d : ℤ) < Int.tmod x (d : ℤ) ∧ Int.tmod x (d : ℤ) < (d : ℤ) := by
  have habs : (Int.tmod x (d : ℤ)).natAbs < d := by
    rw [natAbs_tmod]
    simpa using Nat.mod_lt _ hd
  omega

/-- The divisor divides the difference between a number and its truncated
remainder. -/
theorem dvd_sub_tmod (x : ℤ) (d : ℤ) : d ∣ x - Int.tmod x d := by
  have h2 := Int.tdiv_add_tmod x d
  exact ⟨Int.tdiv x d, by linarith⟩

/-- The sign-normalized truncated remainder used by `hash` is the Euclidean
remainder. -/
theorem tmod_shift (x : ℤ) (d : ℕ) (hd : 0 < d) :
    (if Int.tmod x (d : ℤ) < 0 then Int.tmod x (d : ℤ) + (d : ℤ) else Int.tmod x (d : ℤ))
      = x % (d : ℤ) := by
  obtain ⟨h1, h2⟩ := tmod_bounds x d hd
  have hdvd := dvd_sub_tmod x (d : ℤ)
  by_cases hneg : Int.tmod x (d : ℤ) < 0
  · rw [if_pos hneg]
    have hcong : Int.tmod x (d : ℤ) + (d : ℤ) ≡ x [ZMOD (d : ℤ)] := by
      rw [Int.modEq_iff_dvd]
      obtain ⟨q, hq⟩ := hdvd
      exact ⟨q - 1, by linarith⟩
    have h3 : (Int.tmod x (d : ℤ) + (d : ℤ)) % (d : ℤ) = x % (d : ℤ) := hcong
    rw [← h3, Int.emod_eq_of_lt (by omega) (by omega)]
  · rw [if_neg hneg]
    have hcong : Int.tmod x (d : ℤ) ≡ x [ZMOD (d : ℤ)] := by
      rw [Int.modEq_iff_dvd]
      exact hdvd
    have h3 : Int.tmod x (d : ℤ) % (d : ℤ) = x % (d : ℤ) := hcong
    rw [← h3, Int.emod_eq_of_lt (by omega) (by omega)]

/-- `hash` in closed form: Euclidean remainder plus the `sgnpow` group
element. -/
theorem hash_closed_form (G : HRPPHICT) (x : ℤ) (hd : 0 < G.d) (c : ℕ)
    (hc : sgnpow G.a x G.n = some c) :
    G.hash x = some ⟨(x % (G.d : ℤ)).toNat, c, G.d, G.n⟩ := by
  unfold HRPPHICT.hash
  rw [if_neg (by omega), hc, Option.map_some']
  simp only []
  rw [tmod_shift x G.d hd]

/-- A successful `hash` forces positive moduli. -/
theorem hash_some_pos {G : HRPPHICT} {x : ℤ} {H : Hash} (h : G.hash x = some H) :
    0 < G.d ∧ 0 < G.n := by
  unfold HRPPHICT.hash at h
  by_cases hd : G.d = 0
  · rw [if_pos hd] at h
    cases h
  · rw [if_neg hd] at h
    unfold sgnpow at h
    by_cases hn : G.n = 0
    · rw [if_pos hn] at h
      cases h
    · exact ⟨by omega, by omega⟩

/-- A successful `hash` determines the fields of the result. -/
theorem hash_some_elim {G : HRPPHICT} {x : ℤ} {H : Hash} (h : G.hash x = some H) :
    sgnpow G.a x G.n = some H.g ∧ H = ⟨(x % (G.d : ℤ)).toNat, H.g, G.d, G.n⟩ := by
  obtain ⟨hd, -⟩ := hash_some_pos h
  unfold HRPPHICT.hash at h
  rw [if_neg (by omega)] at h
  obtain ⟨c, hc, hmap⟩ := Option.map_eq_some'.mp h
  simp only [] at hmap
  rw [tmod_shift x G.d hd] at hmap
  subst hmap
  exact ⟨hc, rfl⟩

/-- A `hash` that had to invert (negative input) certifies coprimality of the
base and the modulus. -/
theorem hash_neg_coprime {G : HRPPHICT} {x : ℤ} {H : Hash} (h : G.hash x = some H)
    (hx : x < 0) : Nat.Coprime G.a G.n := by
  obtain ⟨hd, hn⟩ := hash_some_pos h
  obtain ⟨hc, -⟩ := hash_some_elim h
  unfold sgnpow at hc
  rw [if_neg (by omega), if_neg (by omega)] at hc
  obtain ⟨-, -, hco⟩ := modinverse_spec _ _ _ hn hc
  have hmod : Nat.Coprime (G.a ^ (-x).toNat) G.n := by
    have hrec := Nat.gcd_rec G.n (G.a ^ (-x).toNat)
    unfold Nat.Coprime
    rw [Nat.gcd_comm, hrec]
    exact hco
  have hk : 0 < (-x).toNat := by omega
  exact (Nat.coprime_pow_left_iff hk _ _).mp hmod

/-! ### Arithmetic on remainders and group elements -/

/-- The Euclidean remainder, converted to `ℕ`, is below the divisor. -/
theorem toNat_emod_lt (x : ℤ) (d : ℕ) (hd : 0 < d) : (x % (d : ℤ)).toNat < d := by
  have h1 := Int.emod_nonneg x (show (d : ℤ) ≠ 0 by omega)
  have h2 := Int.emod_lt_of_pos x (show (0 : ℤ) < (d : ℤ) by omega)
  omega

/-- Adding two normalized remainders modulo `d` gives the remainder of the
sum. -/
theorem add_remainders (x y : ℤ) (d : ℕ) (hd : 0 < d) :
    ((x % (d : ℤ)).toNat + (y % (d : ℤ)).toNat) % d = ((x + y) % (d : ℤ)).toNat := by
  have h1 := Int.emod_nonneg x (show (d : ℤ) ≠ 0 by omega)
  have h2 := Int.emod_nonneg y (show (d : ℤ) ≠ 0 by omega)
  have h3 := Int.emod_nonneg (x + y) (show (d : ℤ) ≠ 0 by omega)
  have key : ((((x % (d : ℤ)).toNat + (y % (d : ℤ)).toNat) % d : ℕ) : ℤ)
      = (x + y) % (d : ℤ) := by
    push_cast
    rw [Int.toNat_of_nonneg h1, Int.toNat_of_nonneg h2, ← Int.add_emod]
  omega

/-- The remainder combination performed by `sub` via `inverse`:
`(r₁ + (d - r₂)) mod d` is the remainder of the difference. -/
theorem sub_remainders (x y : ℤ) (d : ℕ) (hd : 0 < d) :
    ((x % (d : ℤ)).toNat + (d - (y % (d : ℤ)).toNat)) % d = ((x - y) % (d : ℤ)).toNat := by
  have h1 := Int.emod_nonneg x (show (d : ℤ) ≠ 0 by omega)
  have h2 := Int.emod_nonneg y (show (d : ℤ) ≠ 0 by omega)
  have h3 := Int.emod_nonneg (x - y) (show (d : ℤ) ≠ 0 by omega)
  have hble : (y % (d : ℤ)).toNat ≤ d := le_of_lt (toNat_emod_lt y d hd)
  have key : ((((x % (d : ℤ)).toNat + (d - (y % (d : ℤ)).toNat)) % d : ℕ) : ℤ)
      = (x - y) % (d : ℤ) := by
    push_cast [Nat.cast_sub hble]
    rw [Int.toNat_of_nonneg h1, Int.toNat_of_nonneg h2]
    have h4 : x % (d : ℤ) + ((d : ℤ) - y % (d : ℤ)) = (x % (d : ℤ) - y % (d : ℤ)) + (d : ℤ) * 1 := by
      ring
    rw [h4, Int.add_mul_emod_self_left, ← Int.sub_emod]
  omega

/-- Multiplying values of units modulo `n` is the value of the product. -/
theorem val_unit_mul (n : ℕ) (u v : (ZMod n)ˣ) :
    ((u : ZMod n)).val * ((v : ZMod n)).val % n = (((u * v : (ZMod n)ˣ) : ZMod n)).val := by
  rw [Units.val_mul, ZMod.val_mul]

/-- `sgnpow` is multiplicative on exponents, given either a coprime base or
non-negative exponents. -/
theorem sgnpow_mul (a n : ℕ) (hn : 0 < n) (x y : ℤ) (cx cy : ℕ)
    (hx : sgnpow a x n = some cx) (hy : sgnpow a y n = some cy)
    (hcases : Nat.Coprime a n ∨ (0 ≤ x ∧ 0 ≤ y)) :
    sgnpow a (x + y) n = some (cx * cy % n) := by
  rcases hcases with hcop | ⟨hx0, hy0⟩
  · rw [sgnpow_unit a n hn hcop] at hx hy
    rw [sgnpow_unit a n hn hcop]
    obtain rfl : cx = _ := (Option.some_inj.mp hx).symm
    obtain rfl : cy = _ := (Option.some_inj.mp hy).symm
    rw [val_unit_mul, ← zpow_add]
  · unfold sgnpow at hx hy ⊢
    rw [if_neg (by omega), if_pos hx0] at hx
    rw [if_neg (by omega), if_pos hy0] at hy
    rw [if_neg (by omega), if_pos (by omega : 0 ≤ x + y)]
    obtain rfl : cx = _ := (Option.some_inj.mp hx).symm
    obtain rfl : cy = _ := (Option.some_inj.mp hy).symm
    have htn : (x + y).toNat = x.toNat + y.toNat := by omega
    rw [htn, pow_add, Nat.mul_mod]

/-- For a coprime base, `modinverse` of a `sgnpow` value is the `sgnpow` at the
negated exponent. -/
theorem sgnpow_modinverse (a n : ℕ) (hn : 0 < n) (hcop : Nat.Coprime a n) (y : ℤ) (cy : ℕ)
    (hy : sgnpow a y n = some cy) :
    modinverse cy n = sgnpow a (-y) n := by
  rw [sgnpow_unit a n hn hcop] at hy
  obtain rfl : cy = _ := (Option.some_inj.mp hy).symm
  rw [sgnpow_unit a n hn hcop, modinverse_val_unit n hn, zpow_neg]

/-! ### Homomorphism of `hash` -/

/-- Any group element produced by `sgnpow` is reduced below the modulus. -/
theorem sgnpow_lt {a : ℕ} {x : ℤ} {n c : ℕ} (h : sgnpow a x n = some c) : c < n := by
  unfold sgnpow at h
  by_cases hn : n = 0
  · rw [if_pos hn] at h
    cases h
  · rw [if_neg hn] at h
    by_cases hx : 0 ≤ x
    · rw [if_pos hx] at h
      obtain rfl : c = _ := (Option.some_inj.mp h).symm
      exact Nat.mod_lt _ (by omega)
    · rw [if_neg hx] at h
      exact (modinverse_spec _ _ _ (by omega) h).1

/-- Additive homomorphism at the level of `hash`: whenever both inputs hash
without aborting, the hash of the sum is the sum of the hashes. -/
theorem hash_add_hom (G : HRPPHICT) (x y : ℤ) (Hx Hy : Hash)
    (hx : G.hash x = some Hx) (hy : G.hash y = some Hy) :
    G.hash (x + y) = Hx.add Hy := by
  obtain ⟨hd, hn⟩ := hash_some_pos hx
  obtain ⟨hcx, hHx⟩ := hash_some_elim hx
  obtain ⟨hcy, hHy⟩ := hash_some_elim hy
  have hcases : Nat.Coprime G.a G.n ∨ (0 ≤ x ∧ 0 ≤ y) := by
    by_cases h0x : 0 ≤ x
    · by_cases h0y : 0 ≤ y
      · exact Or.inr ⟨h0x, h0y⟩
      · exact Or.inl (hash_neg_coprime hy (by omega))
    · exact Or.inl (hash_neg_coprime hx (by omega))
  have hsum := sgnpow_mul G.a G.n hn x y Hx.g Hy.g hcx hcy hcases
  rw [hash_closed_form G (x + y) hd _ hsum, hHx, hHy]
  simp only [Hash.add]
  rw [if_pos ⟨trivial, trivial⟩, add_remainders x y G.d hd]

/-- Subtractive homomorphism at the level of `hash`, for a coprime base. -/
theorem hash_sub_hom (G : HRPPHICT) (x y : ℤ) (Hx Hy : Hash)
    (hcop : Nat.Coprime G.a G.n)
    (hx : G.hash x = some Hx) (hy : G.hash y = some Hy) :
    G.hash (x - y) = Hx.sub Hy := by
  obtain ⟨hd, hn⟩ := hash_some_pos hx
  obtain ⟨hcx, hHx⟩ := hash_some_elim hx
  obtain ⟨hcy, hHy⟩ := hash_some_elim hy
  have hinv := sgnpow_modinverse G.a G.n hn hcop y Hy.g hcy
  have hneg := sgnpow_unit G.a G.n hn hcop (-y)
  have hsub : sgnpow G.a (x - y) G.n
      = some (Hx.g * (((ZMod.unitOfCoprime G.a hcop ^ (-y) : (ZMod G.n)ˣ) : ZMod G.n)).val
          % G.n) := by
    rw [sub_eq_add_neg]
    exact sgnpow_mul G.a G.n hn x (-y) _ _ hcx hneg (Or.inl hcop)
  rw [hash_closed_form G (x - y) hd _ hsub, hHx, hHy]
  simp only [Hash.sub, Hash.inverse]
  rw [hinv, hneg, Option.map_some']
  simp only [Option.some_bind, Hash.add]
  rw [if_pos ⟨trivial, trivial⟩, sub_remainders x y G.d hd]

/-! ### The `eval` loop -/

/-- Loop exit: the candidate reached the bottom of the range. -/
theorem evalLoopC_stop (G : HRPPHICT) (g : ℕ) (c : ℤ) (hd : G.d ≠ 0)
    (h : ¬ c > -(G.t : ℤ)) : evalLoopC G g c = (some (none, false), 0) := by
  rw [evalLoopC]
  simp [hd, h]

/-- Loop hit: the candidate's group element matches. -/
theorem evalLoopC_hit (G : HRPPHICT) (g : ℕ) (c : ℤ) (hd : G.d ≠ 0)
    (h : c > -(G.t : ℤ)) (hb : G.eqcheck c g = some true) :
    evalLoopC G g c = (some (some c, true), 1) := by
  rw [evalLoopC]
  simp [hd, h, hb]

/-- Loop miss: the candidate fails the check and the loop recurses. -/
theorem evalLoopC_miss (G : HRPPHICT) (g : ℕ) (c : ℤ) (hd : G.d ≠ 0)
    (h : c > -(G.t : ℤ)) (hb : G.eqcheck c g = some false) :
    evalLoopC G g c
      = ((evalLoopC G g (c - (G.d : ℤ))).1, (evalLoopC G g (c - (G.d : ℤ))).2 + 1) := by
  conv_lhs => rw [evalLoopC]
  simp [hd, h, hb]

/-- Loop abort: the trial exponentiation itself panics. -/
theorem evalLoopC_abort (G : HRPPHICT) (g : ℕ) (c : ℤ) (hd : G.d ≠ 0)
    (h : c > -(G.t : ℤ)) (hb : G.eqcheck c g = none) :
    evalLoopC G g c = (none, 1) := by
  rw [evalLoopC]
  simp [hd, h, hb]

/-- Soundness of the loop: any returned value is either a miss report
`(none, false)` or a hit `(some c, true)` with `c` strictly above `-t`, at most
the starting candidate (hence at most `t`), and congruent to the starting
candidate modulo `d`. -/
theorem evalLoopC_sound (G : HRPPHICT) (g ρ : ℕ) (hd : 0 < G.d) :
    ∀ (N : ℕ) (c : ℤ), (c + (G.t : ℤ)).toNat ≤ N → c ≤ (G.t : ℤ) →
    (G.d : ℤ) ∣ c - (ρ : ℤ) →
    ∀ res, (evalLoopC G g c).1 = some res →
    res = (none, false) ∨
      ∃ cc : ℤ, res = (some cc, true) ∧ -(G.t : ℤ) < cc ∧ cc ≤ (G.t : ℤ) ∧
        (G.d : ℤ) ∣ cc - (ρ : ℤ) := by
  intro N
  induction N with
  | zero =>
    intro c hN hle hdvd res hres
    rw [evalLoopC_stop G g c (by omega) (by omega)] at hres
    simp only [Option.some_inj] at hres
    exact Or.inl hres.symm
  | succ N ih =>
    intro c hN hle hdvd res hres
    by_cases hgt : c > -(G.t : ℤ)
    · cases hb : G.eqcheck c g with
      | none =>
        rw [evalLoopC_abort G g c (by omega) hgt hb] at hres
        cases hres
      | some b =>
        cases b with
        | true =>
          rw [evalLoopC_hit G g c (by omega) hgt hb] at hres
          simp only [Option.some_inj] at hres
          exact Or.inr ⟨c, hres.symm, hgt, hle, hdvd⟩
        | false =>
          rw [evalLoopC_miss G g c (by omega) hgt hb] at hres
          refine ih (c - (G.d : ℤ)) (by omega) (by omega) ?_ res hres
          obtain ⟨q, hq⟩ := hdvd
          exact ⟨q - 1, by linarith⟩
    · rw [evalLoopC_stop G g c (by omega) hgt] at hres
      simp only [Option.some_inj] at hres
      exact Or.inl hres.symm

/-- Upper bound on the number of trial exponentiations performed by the loop
from a given starting candidate: at most `⌈(c + t) / d⌉`. -/
theorem evalLoopC_count_le (G : HRPPHICT) (g : ℕ) (hd : 0 < G.d) :
    ∀ (N : ℕ) (c : ℤ), (c + (G.t : ℤ)).toNat ≤ N →
    (evalLoopC G g c).2 ≤ ((c + (G.t : ℤ)).toNat + G.d - 1) / G.d := by
  intro N
  induction N with
  | zero =>
    intro c hN
    rw [evalLoopC_stop G g c (by omega) (by omega)]
    exact Nat.zero_le _
  | succ N ih =>
    intro c hN
    by_cases hgt : c > -(G.t : ℤ)
    · have hN1 : 1 ≤ (c + (G.t : ℤ)).toNat := by omega
      have hone : 1 ≤ ((c + (G.t : ℤ)).toNat + G.d - 1) / G.d := by
        rw [Nat.le_div_iff_mul_le hd]
        omega
      cases hb : G.eqcheck c g with
      | none =>
        rw [evalLoopC_abort G g c (by omega) hgt hb]
        exact hone
      | some b =>
        cases b with
        | true =>
          rw [evalLoopC_hit G g c (by omega) hgt hb]
          exact hone
        | false =>
          rw [evalLoopC_miss G g c (by omega) hgt hb]
          simp only []
          by_cases hbig : G.d < (c + (G.t : ℤ)).toNat
          · have hrec := ih (c - (G.d : ℤ)) (by omega)
            have hMeq : (c - (G.d : ℤ) + (G.t : ℤ)).toNat = (c + (G.t : ℤ)).toNat - G.d := by
              omega
            rw [hMeq] at hrec
            have hstep : ((c + (G.t : ℤ)).toNat - G.d + G.d - 1) / G.d + 1
                = ((c + (G.t : ℤ)).toNat + G.d - 1) / G.d := by
              have h1 : (c + (G.t : ℤ)).toNat - G.d + G.d - 1 + G.d
                  = (c + (G.t : ℤ)).toNat + G.d - 1 := by omega
              rw [← Nat.add_div_right _ hd, h1]
            omega
          · have hstop : ¬ (c - (G.d : ℤ) > -(G.t : ℤ)) := by omega
            rw [evalLoopC_stop G g _ (by omega) hstop]
            exact hone
    · rw [evalLoopC_stop G g c (by omega) hgt]
      exact Nat.zero_le _

/-- Exact number of trial exponentiations when no candidate ever matches:
exactly `⌈(c + t) / d⌉`. -/
theorem evalLoopC_count_exact (G : HRPPHICT) (g : ℕ) (hd : 0 < G.d)
    (hall : ∀ c : ℤ, G.eqcheck c g = some false) :
    ∀ (N : ℕ) (c : ℤ), (c + (G.t : ℤ)).toNat ≤ N →
    (evalLoopC G g c).2 = ((c + (G.t : ℤ)).toNat + G.d - 1) / G.d := by
  intro N
  induction N with
  | zero =>
    intro c hN
    rw [evalLoopC_stop G g c (by omega) (by omega)]
    have h0 : (c + (G.t : ℤ)).toNat = 0 := by omega
    rw [h0]
    exact (Nat.div_eq_of_lt (by omega)).symm
  | succ N ih =>
    intro c hN
    by_cases hgt : c > -(G.t : ℤ)
    · have hN1 : 1 ≤ (c + (G.t : ℤ)).toNat := by omega
      rw [evalLoopC_miss G g c (by omega) hgt (hall c)]
      simp only []
      by_cases hbig : G.d < (c + (G.t : ℤ)).toNat
      · have hrec := ih (c - (G.d : ℤ)) (by omega)
        have hMeq : (c - (G.d : ℤ) + (G.t : ℤ)).toNat = (c + (G.t : ℤ)).toNat - G.d := by
          omega
        rw [hMeq] at hrec
        have hstep : ((c + (G.t : ℤ)).toNat - G.d + G.d - 1) / G.d + 1
            = ((c + (G.t : ℤ)).toNat + G.d - 1) / G.d := by
          have h1 : (c + (G.t : ℤ)).toNat - G.d + G.d - 1 + G.d
              = (c + (G.t : ℤ)).toNat + G.d - 1 := by omega
          rw [← Nat.add_div_right _ hd, h1]
        omega
      · have hstop : ¬ (c - (G.d : ℤ) > -(G.t : ℤ)) := by omega
        rw [evalLoopC_stop G g _ (by omega) hstop]
        have hone : ((c + (G.t : ℤ)).toNat + G.d - 1) / G.d = 1 :=
          Nat.div_eq_of_lt_le (by omega) (by omega)
        omega
    · rw [evalLoopC_stop G g c (by omega) hgt]
      have h0 : (c + (G.t : ℤ)).toNat = 0 := by omega
      rw [h0]
      exact (Nat.div_eq_of_lt (by omega)).symm

/-! ### Small concrete inverses (obtained through the general theory) -/

/-- Concrete value: the inverse of `2` modulo `7`. -/
theorem modinverse_2_7 : modinverse 2 7 = some 4 := by
  obtain ⟨v, hv, hlt, hmul⟩ := modinverse_some 2 7 (by norm_num) (by norm_num)
  have hveq : v = 4 := by omega
  rw [hveq] at hv
  exact hv

/-- Concrete value: the inverse of `1` modulo `2`. -/
theorem modinverse_1_2 : modinverse 1 2 = some 1 := by
  obtain ⟨v, hv, hlt, hmul⟩ := modinverse_some 1 2 (by norm_num) (by norm_num)
  have hveq : v = 1 := by omega
  rw [hveq] at hv
  exact hv

/-- Concrete value: the degenerate inverse of `1` modulo `1`. -/
theorem modinverse_1_1 : modinverse 1 1 = some 0 := by
  obtain ⟨v, hv, hlt, hmul⟩ := modinverse_some 1 1 (by norm_num) (by norm_num)
  have hveq : v = 0 := by omega
  rw [hveq] at hv
  exact hv

/-! ### Elimination lemmas for the `Hash` algebra -/

/-- A successful addition forces matching moduli and determines the result. -/
theorem add_some_elim {h1 h2 h3 : Hash} (h : h1.add h2 = some h3) :
    h1.d = h2.d ∧ h1.n = h2.n ∧
    h3 = ⟨(h1.r + h2.r) % h1.d, h1.g * h2.g % h1.n, h1.d, h1.n⟩ := by
  unfold Hash.add at h
  by_cases hc : h1.d = h2.d ∧ h1.n = h2.n
  · rw [if_pos hc] at h
    exact ⟨hc.1, hc.2, (Option.some_inj.mp h).symm⟩
  · rw [if_neg hc] at h
    cases h

/-- A successful inversion determines the result. -/
theorem inverse_some_elim {h hi : Hash} (hh : h.inverse = some hi) :
    ∃ gi, modinverse h.g h.n = some gi ∧ hi = ⟨h.d - h.r, gi, h.d, h.n⟩ := by
  unfold Hash.inverse at hh
  obtain ⟨gi, hgi, hmap⟩ := Option.map_eq_some'.mp hh
  exact ⟨gi, hgi, hmap.symm⟩

/-- A successful subtraction forces matching moduli, an invertible group
element, and determines the result. -/
theorem sub_some_elim {h1 h2 h3 : Hash} (h : h1.sub h2 = some h3) :
    ∃ gi, modinverse h2.g h2.n = some gi ∧ h1.d = h2.d ∧ h1.n = h2.n ∧
      h3 = ⟨(h1.r + (h2.d - h2.r)) % h1.d, h1.g * gi % h1.n, h1.d, h1.n⟩ := by
  unfold Hash.sub at h
  obtain ⟨hi, hhi, hadd⟩ := Option.bind_eq_some.mp h
  obtain ⟨gi, hgi, hieq⟩ := inverse_some_elim hhi
  obtain ⟨hd, hn, h3eq⟩ := add_some_elim hadd
  rw [hieq] at hd hn h3eq
  exact ⟨gi, hgi, hd, hn, h3eq⟩

/-! ### The initial candidate -/

/-- The initial candidate never exceeds the threshold (for a well-formed
generator and an in-range remainder). -/
theorem evalInit_le (G : HRPPHICT) (h : Hash) (hst : G.s * G.d ≤ G.t) (hr : h.r < G.d) :
    evalInit G h ≤ (G.t : ℤ) := by
  unfold evalInit
  simp only []
  split <;> omega

/-- The initial candidate is congruent to the hash remainder modulo `d`. -/
theorem evalInit_dvd (G : HRPPHICT) (h : Hash) :
    (G.d : ℤ) ∣ evalInit G h - (h.r : ℤ) := by
  unfold evalInit
  simp only []
  split
  · exact ⟨(G.s : ℤ) - 1, by push_cast; ring⟩
  · exact ⟨(G.s : ℤ), by push_cast; ring⟩

/-! ### Claim theorems -/

/-- C2: for every Generator `G` and all integers `x` and `y`, whenever
`hash(x)` and `hash(y)` return values, `G.hash(x + y)` equals
`G.hash(x) + G.hash(y)`, where HashValue addition adds remainders modulo
`smallModulus` and multiplies group elements modulo `bigModulus`, and equality
is component-wise. -/
theorem hash_additive_hom (G : HRPPHICT) (x y : ℤ) (Hx Hy : Hash)
    (hx : G.hash x = some Hx) (hy : G.hash y = some Hy) :
    G.hash (x + y) = Hx.add Hy :=
  hash_add_hom G x y Hx Hy hx hy

/-- Witness for C2 at a concrete generator and inputs. -/
theorem hash_additive_hom_witness :
    HRPPHICT.hash ⟨50, 50, 1, 3, 7⟩ 3 = some ⟨3, 6, 50, 7⟩ ∧
    HRPPHICT.hash ⟨50, 50, 1, 3, 7⟩ 2 = some ⟨2, 2, 50, 7⟩ ∧
    HRPPHICT.hash ⟨50, 50, 1, 3, 7⟩ (3 + 2) = Hash.add ⟨3, 6, 50, 7⟩ ⟨2, 2, 50, 7⟩ :=
  ⟨rfl, rfl, hash_additive_hom ⟨50, 50, 1, 3, 7⟩ 3 2 ⟨3, 6, 50, 7⟩ ⟨2, 2, 50, 7⟩ rfl rfl⟩

/-- C3: for every Generator `G` and all integers `x` and `y`, whenever
`hash(x)`, `hash(y)` and the subtraction `hash(x) - hash(y)` all return values
(the subtraction aborts on a non-invertible group element), `G.hash(x - y)`
equals `G.hash(x) - G.hash(y)`, where subtraction is `add(h1, inverse(h2))`
with `inverse` taking the remainder to `smallModulus - remainder` and the
group element to its modular inverse. -/
theorem hash_subtractive_hom (G : HRPPHICT) (x y : ℤ) (Hx Hy Hz : Hash)
    (hx : G.hash x = some Hx) (hy : G.hash y = some Hy)
    (hsub : Hx.sub Hy = some Hz) :
    G.hash (x - y) = some Hz := by
  by_cases hcop : Nat.Coprime G.a G.n
  · rw [hash_sub_hom G x y Hx Hy hcop hx hy, hsub]
  · obtain ⟨hd, hn⟩ := hash_some_pos hx
    have hx0 : 0 ≤ x := by
      by_contra hneg
      exact hcop (hash_neg_coprime hx (by omega))
    have hy0 : 0 ≤ y := by
      by_contra hneg
      exact hcop (hash_neg_coprime hy (by omega))
    obtain ⟨hcx, hHx⟩ := hash_some_elim hx
    obtain ⟨hcy, hHy⟩ := hash_some_elim hy
    obtain ⟨gi, hgi, hdd, hnn, hzeq⟩ := sub_some_elim hsub
    have hygval : Hy.g = G.a ^ y.toNat % G.n := by
      unfold sgnpow at hcy
      rw [if_neg (by omega), if_pos hy0] at hcy
      exact (Option.some_inj.mp hcy).symm
    have hyd : Hy.d = G.d := by rw [hHy]
    have hyn : Hy.n = G.n := by rw [hHy]
    obtain ⟨hgilt, hgimul, hgico⟩ := modinverse_spec Hy.g Hy.n gi (by omega) hgi
    have hyz : y = 0 := by
      by_contra hyne
      have hk : 0 < y.toNat := by omega
      rw [hygval, hyn] at hgico
      have hco2 : Nat.Coprime (G.a ^ y.toNat) G.n := by
        have hrec := Nat.gcd_rec G.n (G.a ^ y.toNat)
        unfold Nat.Coprime
        rw [Nat.gcd_comm, hrec]
        exact hgico
      exact hcop ((Nat.coprime_pow_left_iff hk _ _).mp hco2)
    subst hyz
    have hyg1 : Hy.g = 1 % G.n := by
      rw [hygval]
      norm_num
    have hxglt : Hx.g < G.n := sgnpow_lt hcx
    have hxd : Hx.d = G.d := by rw [hHx]
    have hxn : Hx.n = G.n := by rw [hHx]
    have hxrlt : Hx.r < G.d := by
      rw [hHx]
      exact toNat_emod_lt x G.d hd
    have hyr0 : Hy.r = 0 := by
      rw [hHy]
      norm_num
    have hgieq : Hx.g * gi % G.n = Hx.g := by
      rw [hyg1, hyn] at hgimul
      by_cases hn1 : G.n = 1
      · have hg0 : Hx.g = 0 := by omega
        rw [hg0, hn1]
        norm_num
      · have h1n : 1 % G.n = 1 := Nat.mod_eq_of_lt (by omega)
        rw [h1n, Nat.mul_one] at hgimul
        rw [hyn] at hgilt
        rw [Nat.mod_eq_of_lt hgilt] at hgimul
        rw [hgimul, Nat.mul_one]
        exact Nat.mod_eq_of_lt hxglt
    have hreq : (Hx.r + (Hy.d - Hy.r)) % Hx.d = Hx.r := by
      rw [hyr0, hyd, Nat.sub_zero, hxd, Nat.add_mod_right]
      exact Nat.mod_eq_of_lt hxrlt
    rw [sub_zero, hx, hzeq, hreq, hxn, hgieq, ← hxn]

/-- Witness for C3 at a concrete generator and inputs. -/
theorem hash_subtractive_hom_witness :
    Hash.sub ⟨3, 6, 50, 7⟩ ⟨2, 2, 50, 7⟩ = some ⟨1, 3, 50, 7⟩ ∧
    HRPPHICT.hash ⟨50, 50, 1, 3, 7⟩ (3 - 2) = some ⟨1, 3, 50, 7⟩ := by
  have hsub : Hash.sub ⟨3, 6, 50, 7⟩ ⟨2, 2, 50, 7⟩ = some ⟨1, 3, 50, 7⟩ := by
    unfold Hash.sub Hash.inverse
    rw [show (⟨2, 2, 50, 7⟩ : Hash).g = 2 from rfl,
      show (⟨2, 2, 50, 7⟩ : Hash).n = 7 from rfl, modinverse_2_7]
    rfl
  exact ⟨hsub, hash_subtractive_hom ⟨50, 50, 1, 3, 7⟩ 3 2 ⟨3, 6, 50, 7⟩ ⟨2, 2, 50, 7⟩
    ⟨1, 3, 50, 7⟩ rfl rfl hsub⟩

/-- C4 (counterexample to the claim as stated): at `a = 1`, `m = 1` the gcd is
`1` and `modinverse` returns a value, but `(v * a) mod m = 1` is impossible
modulo `1`. -/
theorem modinverse_small_modulus_counterexample :
    modinverse 1 1 = some 0 ∧ 0 * 1 % 1 ≠ 1 :=
  ⟨modinverse_1_1, by norm_num⟩

/-- C4 (amended): for `m ≥ 2`, `modinverse(a, m)` returns `None` iff
`gcd(a, m) ≠ 1`; otherwise it returns `Some v` with `v < m`,
`(v * a) mod m = 1`, and `v` unique with these properties in `[0, m)`. -/
theorem modinverse_correct (a m : ℕ) (hm : 2 ≤ m) :
    (modinverse a m = none ↔ Nat.gcd a m ≠ 1) ∧
    ∀ v, modinverse a m = some v →
      v < m ∧ v * a % m = 1 ∧ ∀ w, w < m → w * a % m = 1 → w = v := by
  constructor
  · exact modinverse_none_iff a m (by omega)
  · intro v hv
    obtain ⟨hlt, hmul, hco⟩ := modinverse_spec a m v (by omega) hv
    have h1m : 1 % m = 1 := Nat.mod_eq_of_lt (by omega)
    rw [h1m] at hmul
    refine ⟨hlt, hmul, ?_⟩
    intro w hwlt hwmul
    exact modinverse_unique hco (by rw [h1m]; exact hwmul) (by rw [h1m]; exact hmul) hwlt hlt

/-- Witness for C4 at a concrete coprime pair. -/
theorem modinverse_correct_witness :
    2 ≤ 7 ∧
    ((modinverse 3 7 = none ↔ Nat.gcd 3 7 ≠ 1) ∧
     ∀ v, modinverse 3 7 = some v →
       v < 7 ∧ v * 3 % 7 = 1 ∧ ∀ w, w < 7 → w * 3 % 7 = 1 → w = v) :=
  ⟨by norm_num, modinverse_correct 3 7 (by norm_num)⟩

/-- C6: the code contradicts its own documentation at `threshold = 150`:
setup yields `smallModulus = 1` and `halfRounds = 150 > 100`, although both
the struct documentation and the spec bound `halfRounds` by about `100`.
The first half of the claim (`halfRounds = threshold / smallModulus`) does
hold; this theorem evaluates the code at the failing input. -/
theorem new_halfRounds_exceeds_100 :
    HRPPHICT.new 150 0 5 = some ⟨150, 1, 150, 0, 5⟩ ∧ ¬(150 ≤ 100) :=
  ⟨rfl, by norm_num⟩

/-- C7 (counterexample to the claim as stated): setup panics at
`threshold = 0`, because `smallModulus = 0` and `halfRounds = threshold /
smallModulus` divides by zero. -/
theorem new_zero_threshold_counterexample : HRPPHICT.new 0 0 5 = none := rfl

/-- C7 (amended): for every `threshold ≥ 1` and positive external modulus,
setup completes, and the resulting Generator satisfies `smallModulus ≥ 1`,
`halfRounds = threshold / smallModulus` exactly, and `base < bigModulus`. -/
theorem new_invariants (threshold a0 module : ℕ) (ht : 1 ≤ threshold)
    (hm : 0 < module) :
    ∃ G, HRPPHICT.new threshold a0 module = some G ∧ G.t = threshold ∧
      G.n = module ∧ 1 ≤ G.d ∧ G.s = G.t / G.d ∧ G.a < G.n := by
  unfold HRPPHICT.new
  simp only []
  have hd1 : 1 ≤ (if threshold ≤ 100 then threshold else threshold / 100) := by
    split
    · omega
    · exact (Nat.one_le_div_iff (by norm_num)).mpr (by omega)
  rw [if_neg (by omega)]
  exact ⟨_, rfl, rfl, rfl, hd1, rfl, Nat.mod_lt _ hm⟩

/-- Witness for C7 at a concrete threshold and modulus. -/
theorem new_invariants_witness :
    1 ≤ 50 ∧ 0 < 7 ∧
    ∃ G, HRPPHICT.new 50 3 7 = some G ∧ G.t = 50 ∧ G.n = 7 ∧ 1 ≤ G.d ∧
      G.s = G.t / G.d ∧ G.a < G.n :=
  ⟨by norm_num, by norm_num, new_invariants 50 3 7 (by norm_num) (by norm_num)⟩

/-- C9: HashValue addition fails exactly when the operands' small or big
moduli differ; subtraction fails exactly when, in addition, the subtrahend's
group element is not invertible; successful results carry the operands'
moduli. -/
theorem hash_algebra_guards :
    (∀ h1 h2 : Hash, h1.add h2 = none ↔ ¬(h1.d = h2.d ∧ h1.n = h2.n)) ∧
    (∀ h1 h2 h3 : Hash, h1.add h2 = some h3 → h3.d = h1.d ∧ h3.n = h1.n) ∧
    (∀ h1 h2 : Hash, h1.sub h2 = none ↔
      (modinverse h2.g h2.n = none ∨ ¬(h1.d = h2.d ∧ h1.n = h2.n))) ∧
    (∀ h1 h2 h3 : Hash, h1.sub h2 = some h3 → h3.d = h1.d ∧ h3.n = h1.n) := by
  have hadd_none : ∀ h1 h2 : Hash, h1.add h2 = none ↔ ¬(h1.d = h2.d ∧ h1.n = h2.n) := by
    intro h1 h2
    unfold Hash.add
    by_cases hc : h1.d = h2.d ∧ h1.n = h2.n
    · rw [if_pos hc]
      simp [hc]
    · rw [if_neg hc]
      simp [hc]
  refine ⟨hadd_none, ?_, ?_, ?_⟩
  · intro h1 h2 h3 h
    obtain ⟨-, -, h3eq⟩ := add_some_elim h
    rw [h3eq]
    exact ⟨rfl, rfl⟩
  · intro h1 h2
    unfold Hash.sub Hash.inverse
    cases hmi : modinverse h2.g h2.n with
    | none =>
      simp [hmi]
    | some gi =>
      simp only [hmi, Option.map_some', Option.some_bind]
      rw [hadd_none h1 ⟨h2.d - h2.r, gi, h2.d, h2.n⟩]
      constructor
      · intro hmm
        exact Or.inr hmm
      · intro hor
        rcases hor with hnone | hmm
        · cases hnone
        · exact hmm
  · intro h1 h2 h3 h
    obtain ⟨gi, -, -, -, h3eq⟩ := sub_some_elim h
    rw [h3eq]
    exact ⟨rfl, rfl⟩

/-- Witness for C9: a concrete successful addition carries the operands'
moduli. -/
theorem hash_algebra_guards_witness :
    (⟨3, 6, 5, 7⟩ : Hash).d = (⟨1, 2, 5, 7⟩ : Hash).d ∧
    (⟨3, 6, 5, 7⟩ : Hash).n = (⟨1, 2, 5, 7⟩ : Hash).n :=
  hash_algebra_guards.2.1 ⟨1, 2, 5, 7⟩ ⟨2, 3, 5, 7⟩ ⟨3, 6, 5, 7⟩ (by decide)

/-- C8 (counterexample to the claim as stated): the implicit inverse of a
HashValue with remainder `0` has remainder `smallModulus`, which is not in
`[0, smallModulus)`. -/
theorem inverse_remainder_counterexample :
    Hash.inverse ⟨0, 1, 50, 2⟩ = some ⟨50, 1, 50, 2⟩ ∧ ¬(50 < 50) := by
  constructor
  · unfold Hash.inverse
    rw [show (⟨0, 1, 50, 2⟩ : Hash).g = 1 from rfl,
      show (⟨0, 1, 50, 2⟩ : Hash).n = 2 from rfl, modinverse_1_2]
    rfl
  · norm_num

/-- C8 (amended): `hash` produces a remainder in `[0, smallModulus)`, and
addition and subtraction of HashValues with in-range remainders again produce
remainders in `[0, smallModulus)`; the implicit inverse instead produces the
remainder `smallModulus - remainder`, which equals `smallModulus` (outside the
range) when the remainder is `0`. -/
theorem remainder_invariant :
    (∀ (G : HRPPHICT) (x : ℤ) (H : Hash), G.hash x = some H → H.r < H.d) ∧
    (∀ h1 h2 h3 : Hash, h1.r < h1.d → h2.r < h2.d → h1.add h2 = some h3 → h3.r < h3.d) ∧
    (∀ h1 h2 h3 : Hash, h1.r < h1.d → h2.r < h2.d → h1.sub h2 = some h3 → h3.r < h3.d) ∧
    (∀ h hi : Hash, h.inverse = some hi → hi.r = h.d - h.r) := by
  refine ⟨?_, ?_, ?_, ?_⟩
  · intro G x H h
    obtain ⟨hd, -⟩ := hash_some_pos h
    obtain ⟨-, hH⟩ := hash_some_elim h
    rw [hH]
    exact toNat_emod_lt x G.d hd
  · intro h1 h2 h3 hr1 hr2 h
    obtain ⟨-, -, h3eq⟩ := add_some_elim h
    rw [h3eq]
    exact Nat.mod_lt _ (by omega)
  · intro h1 h2 h3 hr1 hr2 h
    obtain ⟨gi, -, -, -, h3eq⟩ := sub_some_elim h
    rw [h3eq]
    exact Nat.mod_lt _ (by omega)
  · intro h hi hh
    obtain ⟨gi, -, hieq⟩ := inverse_some_elim hh
    rw [hieq]

/-- Witness for C8: concrete instances of the hash and addition parts. -/
theorem remainder_invariant_witness :
    (⟨3, 6, 50, 7⟩ : Hash).r < (⟨3, 6, 50, 7⟩ : Hash).d ∧
    (⟨0, 4, 50, 7⟩ : Hash).r < (⟨0, 4, 50, 7⟩ : Hash).d :=
  ⟨remainder_invariant.1 ⟨50, 50, 1, 3, 7⟩ 3 ⟨3, 6, 50, 7⟩ (by decide),
   remainder_invariant.2.1 ⟨3, 6, 50, 7⟩ ⟨47, 3, 50, 7⟩ ⟨0, 4, 50, 7⟩
     (by decide) (by decide) (by decide)⟩

/-- C1: the code misses the lower boundary `x = -T`.  With threshold
`T = 50` (so `smallModulus = 50`, `halfRounds = 1`), base `3` and big modulus
`7`, `hash(-50)` succeeds, but `eval` returns `(None, false)` instead of the
claimed `(Some(-50), true)`: the loop condition `c > bottom` is strict, so the
candidate `-50` is never tested. -/
theorem eval_misses_lower_boundary :
    HRPPHICT.hash ⟨50, 50, 1, 3, 7⟩ (-50) = some ⟨0, 4, 50, 7⟩ ∧
    HRPPHICT.eval ⟨50, 50, 1, 3, 7⟩ ⟨0, 4, 50, 7⟩ = some (none, false) := by
  constructor
  · have hsgn : sgnpow 3 (-50) 7 = some 4 := by
      rw [show sgnpow 3 (-50) 7 = modinverse 2 7 from rfl, modinverse_2_7]
    rw [hash_closed_form ⟨50, 50, 1, 3, 7⟩ (-50) (by norm_num) 4 hsgn]
    decide
  · unfold HRPPHICT.eval
    rw [show evalInit ⟨50, 50, 1, 3, 7⟩ ⟨0, 4, 50, 7⟩ = 50 from by decide]
    rw [show (⟨0, 4, 50, 7⟩ : Hash).g = 4 from rfl]
    rw [evalLoopC_miss ⟨50, 50, 1, 3, 7⟩ 4 50 (by decide) (by decide) (by decide)]
    show (evalLoopC ⟨50, 50, 1, 3, 7⟩ 4 (50 - ((⟨50, 50, 1, 3, 7⟩ : HRPPHICT).d : ℤ))).1
      = some (none, false)
    rw [show (50 : ℤ) - ((⟨50, 50, 1, 3, 7⟩ : HRPPHICT).d : ℤ) = 0 from by decide]
    rw [evalLoopC_miss ⟨50, 50, 1, 3, 7⟩ 4 0 (by decide) (by decide) (by decide)]
    show (evalLoopC ⟨50, 50, 1, 3, 7⟩ 4 (0 - ((⟨50, 50, 1, 3, 7⟩ : HRPPHICT).d : ℤ))).1
      = some (none, false)
    rw [show (0 : ℤ) - ((⟨50, 50, 1, 3, 7⟩ : HRPPHICT).d : ℤ) = -50 from by decide]
    rw [evalLoopC_stop ⟨50, 50, 1, 3, 7⟩ 4 (-50) (by decide) (by decide)]

/-- C5 (counterexample to the claim as stated): a generator reachable from
setup with `threshold = 302` (`smallModulus = 3`, `halfRounds = 100`) and a
HashValue whose group element never matches cause the loop to test `202`
candidates, exceeding `2 * halfRounds + 1 = 201`. -/
theorem eval_candidate_bound_counterexample :
    evalSteps ⟨302, 3, 100, 1, 2⟩ ⟨2, 0, 3, 2⟩ = 202 ∧
    ¬(evalSteps ⟨302, 3, 100, 1, 2⟩ ⟨2, 0, 3, 2⟩
        ≤ 2 * (⟨302, 3, 100, 1, 2⟩ : HRPPHICT).s + 1) := by
  have hall : ∀ c : ℤ, HRPPHICT.eqcheck ⟨302, 3, 100, 1, 2⟩ c 0 = some false := by
    intro c
    unfold HRPPHICT.eqcheck sgnpow
    by_cases hc : 0 ≤ c
    · rw [if_neg (by norm_num), if_pos hc]
      simp
    · rw [if_neg (by norm_num), if_neg hc]
      rw [show (⟨302, 3, 100, 1, 2⟩ : HRPPHICT).a = 1 from rfl,
        show (⟨302, 3, 100, 1, 2⟩ : HRPPHICT).n = 2 from rfl,
        Nat.one_pow, show (1 : ℕ) % 2 = 1 from rfl, modinverse_1_2]
      rfl
  have hsteps : evalSteps ⟨302, 3, 100, 1, 2⟩ ⟨2, 0, 3, 2⟩ = 202 := by
    unfold evalSteps
    rw [show evalInit ⟨302, 3, 100, 1, 2⟩ ⟨2, 0, 3, 2⟩ = 302 from by decide]
    rw [show (⟨2, 0, 3, 2⟩ : Hash).g = 0 from rfl]
    rw [evalLoopC_count_exact ⟨302, 3, 100, 1, 2⟩ 0 (by norm_num) hall 605 302 (by decide)]
    decide
  exact ⟨hsteps, by rw [hsteps]; decide⟩

/-- C5 (amended): for a generator satisfying the setup relations
(`smallModulus ≥ 1`, `halfRounds = threshold / smallModulus`) and a HashValue
with in-range remainder, the loop of `eval` performs at most
`2 * halfRounds + 2` trial exponentiations (the bound `2 * halfRounds + 1` of
the claim is exceeded by exactly one in the worst case). -/
theorem eval_candidate_bound (G : HRPPHICT) (h : Hash) (hd : 0 < G.d)
    (hs : G.s = G.t / G.d) (hr : h.r < G.d) :
    evalSteps G h ≤ 2 * G.s + 2 := by
  have hst : G.s * G.d ≤ G.t := by
    rw [hs]
    exact Nat.div_mul_le_self G.t G.d
  have htub : G.t < (G.s + 1) * G.d := by
    rw [hs]
    have h1 := Nat.div_add_mod G.t G.d
    have h2 := Nat.mod_lt G.t hd
    calc G.t = G.d * (G.t / G.d) + G.t % G.d := h1.symm
      _ < G.d * (G.t / G.d) + G.d := by omega
      _ = (G.t / G.d + 1) * G.d := by ring
  have hinit := evalInit_le G h hst hr
  have hcount := evalLoopC_count_le G h.g hd ((evalInit G h + (G.t : ℤ)).toNat)
    (evalInit G h) le_rfl
  have hmono : ((evalInit G h + (G.t : ℤ)).toNat + G.d - 1) / G.d
      ≤ (2 * G.t + G.d - 1) / G.d := Nat.div_le_div_right (by omega)
  have hfin : (2 * G.t + G.d - 1) / G.d < 2 * G.s + 3 := by
    rw [Nat.div_lt_iff_lt_mul hd]
    calc 2 * G.t + G.d - 1 < 2 * ((G.s + 1) * G.d) + G.d := by omega
      _ = (2 * G.s + 3) * G.d := by ring
  unfold evalSteps
  omega

/-- Witness for C5 at a concrete generator and HashValue. -/
theorem eval_candidate_bound_witness :
    0 < (⟨50, 50, 1, 3, 7⟩ : HRPPHICT).d ∧
    evalSteps ⟨50, 50, 1, 3, 7⟩ ⟨3, 6, 50, 7⟩ ≤ 2 * (⟨50, 50, 1, 3, 7⟩ : HRPPHICT).s + 2 :=
  ⟨by decide, eval_candidate_bound ⟨50, 50, 1, 3, 7⟩ ⟨3, 6, 50, 7⟩
    (by decide) (by decide) (by decide)⟩

/-- Concrete evaluation used by the C10 witness: the hash of `3` decodes to
`(Some 3, true)`. -/
theorem eval_hash3_concrete :
    HRPPHICT.eval ⟨50, 50, 1, 3, 7⟩ ⟨3, 6, 50, 7⟩ = some (some 3, true) := by
  unfold HRPPHICT.eval
  rw [show evalInit ⟨50, 50, 1, 3, 7⟩ ⟨3, 6, 50, 7⟩ = 3 from by decide]
  rw [show (⟨3, 6, 50, 7⟩ : Hash).g = 6 from rfl]
  rw [evalLoopC_hit ⟨50, 50, 1, 3, 7⟩ 6 3 (by decide) (by decide) (by decide)]

/-- C10 (counterexample to the claim as stated): `eval` trusts the remainder
stored in the HashValue.  A HashValue produced by a generator with a larger
small modulus (here `hash 30` under threshold `50`) makes the `eval` of a
generator with threshold `5` return `(Some 30, true)` with `30 > 5`, violating
the claimed bound `c ≤ T`.  Both generators and the HashValue are reachable
through setup and hash. -/
theorem eval_result_sound_counterexample :
    HRPPHICT.new 5 1 2 = some ⟨5, 5, 1, 1, 2⟩ ∧
    HRPPHICT.new 50 1 2 = some ⟨50, 50, 1, 1, 2⟩ ∧
    HRPPHICT.hash ⟨50, 50, 1, 1, 2⟩ 30 = some ⟨30, 1, 50, 2⟩ ∧
    HRPPHICT.eval ⟨5, 5, 1, 1, 2⟩ ⟨30, 1, 50, 2⟩ = some (some 30, true) ∧
    ¬((30 : ℤ) ≤ (((⟨5, 5, 1, 1, 2⟩ : HRPPHICT).t : ℕ) : ℤ)) := by
  refine ⟨by decide, by decide, by decide, ?_, by decide⟩
  unfold HRPPHICT.eval
  rw [show evalInit ⟨5, 5, 1, 1, 2⟩ ⟨30, 1, 50, 2⟩ = 30 from by decide]
  rw [show (⟨30, 1, 50, 2⟩ : Hash).g = 1 from rfl]
  rw [evalLoopC_hit ⟨5, 5, 1, 1, 2⟩ 1 30 (by decide) (by decide) (by decide)]

/-- C10 (amended): for a generator satisfying the setup relations and a
HashValue whose remainder is below the generator's small modulus (as holds for
every HashValue built from the same generator), any value returned by `eval`
is either `(None, false)` or `(Some c, true)` with `-T < c ≤ T` and `c`
congruent to the stored remainder modulo `d`; in particular the optional value
and the flag are always consistent and `-T` itself is never returned. -/
theorem eval_result_sound (G : HRPPHICT) (h : Hash) (res : Option ℤ × Bool)
    (hd : 0 < G.d) (hs : G.s = G.t / G.d) (hr : h.r < G.d)
    (hres : G.eval h = some res) :
    res = (none, false) ∨
      ∃ c : ℤ, res = (some c, true) ∧ -(G.t : ℤ) < c ∧ c ≤ (G.t : ℤ) ∧
        (G.d : ℤ) ∣ c - (h.r : ℤ) := by
  have hst : G.s * G.d ≤ G.t := by
    rw [hs]
    exact Nat.div_mul_le_self G.t G.d
  unfold HRPPHICT.eval at hres
  exact evalLoopC_sound G h.g h.r hd ((evalInit G h + (G.t : ℤ)).toNat) (evalInit G h)
    le_rfl (evalInit_le G h hst hr) (evalInit_dvd G h) res hres

/-- Witness for C10 at a concrete generator, HashValue and result. -/
theorem eval_result_sound_witness :
    ((some 3, true) : Option ℤ × Bool) = (none, false) ∨
      ∃ c : ℤ, ((some 3, true) : Option ℤ × Bool) = (some c, true) ∧
        -(((⟨50, 50, 1, 3, 7⟩ : HRPPHICT).t : ℕ) : ℤ) < c ∧
        c ≤ (((⟨50, 50, 1, 3, 7⟩ : HRPPHICT).t : ℕ) : ℤ) ∧
        (((⟨50, 50, 1, 3, 7⟩ : HRPPHICT).d : ℕ) : ℤ) ∣ c - ((⟨3, 6, 50, 7⟩ : Hash).r : ℤ) :=
  eval_result_sound ⟨50, 50, 1, 3, 7⟩ ⟨3, 6, 50, 7⟩ (some 3, true)
    (by decide) (by decide) (by decide) eval_hash3_concrete
